import Mathlib

/-!
Verification of the stepwise sort instrumentation engine of PivotPanic
(You vs QuickSort): a shallow embedding of the Lomuto-partition quicksort
step generator, the pacing controller, the race session state and the
manual move validator, together with proofs of the documented properties.

The Python source (src/PivotPanic.py) is embedded as follows:
* `Step`, `SideState` mirror the dataclasses of the same names;
* `quicksort_steps` mirrors the generator `quicksort_steps` (the generator
  is modelled as the finite list of all Steps it yields, in yield order;
  the `for j in range(lo, hi)` loop is modelled by `partitionLoop`,
  structurally recursive on the remaining iteration count `hi - j`; the
  recursion `_quicksort` by `quicksortRec` with fuel `hi - lo + 1 ≤ length`,
  which provably never runs out);
* `update_algo` / `algoDrain` mirror `YouVsQuickSort.update_algo`
  (wall-clock floats are modelled as rationals);
* `handle_click` mirrors `YouVsQuickSort._handle_click` for the
  interactive left panel, `player_finish_check` the finish check in
  `YouVsQuickSort.run`, and `race_verdict` the winner computation in
  `YouVsQuickSort.draw`.
-/

/-- `is_sorted` from the source: all adjacent pairs are `≤`-ordered. -/
def is_sorted (arr : List Int) : Bool :=
  (List.range (arr.length - 1)).all (fun i => decide (arr.getD i 0 ≤ arr.getD (i + 1) 0))

/-- A single visualization step of QuickSort (dataclass `Step`).
`i`, `j`, `pivot_index` are `Option Int` because the Lomuto boundary
index `i` starts at `lo - 1`, which can be `-1`. -/
structure Step where
  array : List Int
  i : Option Int
  j : Option Int
  pivot_index : Option Int
  action : String
deriving DecidableEq, Repr

/-- Python's simultaneous assignment `arr[a], arr[b] = arr[b], arr[a]`.
Out-of-bounds indices leave the list unchanged (all call sites are
in bounds). -/
def listSwap (l : List Int) (a b : Nat) : List Int :=
  match l[a]?, l[b]? with
  | some x, some y => (l.set a y).set b x
  | _, _ => l

/-- The loop `for j in range(lo, hi)` of `_partition`, modelled by
structural recursion on the remaining iteration count `n = hi - j`.
State: working array `arr`, Lomuto boundary `i`, scan index `j`.
Returns the yielded Steps in order, the final array and the final `i`. -/
def partitionLoop (pivot : Int) (hi : Nat) : Nat → List Int → Int → Nat → List Step × List Int × Int
  | 0, arr, i, _ => ([], arr, i)
  | Nat.succ n, arr, i, j =>
    let cmp : Step := ⟨arr, some i, some (j : Int), some (hi : Int), "compare"⟩
    if arr.getD j 0 ≤ pivot then
      if i + 1 ≠ (j : Int) then
        let arr1 := listSwap arr (i + 1).toNat j
        let sw : Step := ⟨arr1, some (i + 1), some (j : Int), some (hi : Int), "swap"⟩
        let rest := partitionLoop pivot hi n arr1 (i + 1) (j + 1)
        (cmp :: sw :: rest.1, rest.2.1, rest.2.2)
      else
        let rest := partitionLoop pivot hi n arr (i + 1) (j + 1)
        (cmp :: rest.1, rest.2.1, rest.2.2)
    else
      let rest := partitionLoop pivot hi n arr i (j + 1)
      (cmp :: rest.1, rest.2.1, rest.2.2)

/-- `_partition(lo, hi)` from the source: pivot = `arr[hi]`, announce the
pivot, run the scan loop, then place the pivot at `i + 1` (emitting a
`partition` Step only when an actual exchange happens).  Returns the
Steps, the resulting array and the final pivot position `i + 1`. -/
def partitionSteps (arr : List Int) (lo hi : Nat) : List Step × List Int × Nat :=
  let pivot := arr.getD hi 0
  let pivotStep : Step := ⟨arr, none, none, some (hi : Int), "pivot"⟩
  let res := partitionLoop pivot hi (hi - lo) arr ((lo : Int) - 1) lo
  let i := res.2.2
  if i + 1 ≠ (hi : Int) then
    let arr2 := listSwap res.2.1 (i + 1).toNat hi
    let pStep : Step := ⟨arr2, some (i + 1), some (hi : Int), some (hi : Int), "partition"⟩
    (pivotStep :: res.1 ++ [pStep], arr2, (i + 1).toNat)
  else
    (pivotStep :: res.1, res.2.1, (i + 1).toNat)

/-- `_quicksort(lo, hi)` from the source, with fuel making the recursion
structural.  `quicksort_steps` supplies fuel `data.length`, which always
dominates `hi - lo + 1`, so the fuel-exhaustion branch is unreachable
(see `quicksortRec_fuel_irrelevant`). -/
def quicksortRec : Nat → List Int → Nat → Nat → List Step × List Int
  | 0, arr, _, _ => ([], arr)
  | Nat.succ fuel, arr, lo, hi =>
    if lo < hi then
      let pr := partitionSteps arr lo hi
      let left := quicksortRec fuel pr.2.1 lo (pr.2.2 - 1)
      let right := quicksortRec fuel left.2 (pr.2.2 + 1) hi
      (pr.1 ++ left.1 ++ right.1, right.2)
    else ([], arr)

/-- Generator `quicksort_steps(data)`, modelled as the list of all Steps
it yields, in order: the recursion on the full range when `data` is
nonempty, followed by the single final `done` Step. -/
def quicksort_steps (data : List Int) : List Step :=
  if data.isEmpty then [⟨data, none, none, none, "done"⟩]
  else
    let q := quicksortRec data.length data 0 (data.length - 1)
    q.1 ++ [⟨q.2, none, none, none, "done"⟩]

/-- Per-side race state (dataclass `SideState`).  Wall-clock timestamps
(`time.perf_counter()` floats) are modelled as rationals. -/
structure SideState where
  arr : List Int
  start_time : ℚ
  finish_time : Option ℚ
  moves : Nat
  selected : Option Nat
deriving DecidableEq

/-- `YouVsQuickSort._handle_click`, given the bar index resolved by
`_index_at_pos` (`none` when the click misses the player panel) and
the current wall-clock time. -/
def handle_click (s : SideState) (idx? : Option Nat) (now : ℚ) : SideState :=
  match idx? with
  | none => s
  | some idx =>
    if s.finish_time.isSome then s
    else
      match s.selected with
      | none => { s with selected := some idx }
      | some sel =>
        if idx ≠ sel then
          let arr1 := listSwap s.arr sel idx
          let ft := if is_sorted arr1 && s.finish_time.isNone then some now else s.finish_time
          { s with arr := arr1, moves := s.moves + 1, finish_time := ft, selected := none }
        else
          { s with selected := none }

/-- The player finish check in `YouVsQuickSort.run`. -/
def player_finish_check (s : SideState) (now : ℚ) : SideState :=
  if s.finish_time.isNone && is_sorted s.arr then { s with finish_time := some now } else s

/-- Elapsed time of a side as displayed and judged by
`YouVsQuickSort.draw`: `(finish_time or now) - start_time`. -/
def side_elapsed (s : SideState) (now : ℚ) : ℚ :=
  s.finish_time.getD now - s.start_time

/-- The three possible race outcomes of the results overlay. -/
inductive Verdict
  | player
  | algorithm
  | tie
deriving DecidableEq, Repr

/-- The winner computation of `YouVsQuickSort.draw`:
`"You win!" if p_time < a_time else ("QuickSort wins!" if a_time < p_time else tie)`. -/
def race_verdict (p_time a_time : ℚ) : Verdict :=
  if p_time < a_time then Verdict.player
  else if a_time < p_time then Verdict.algorithm
  else Verdict.tie

/-- `ALGO_STEPS_PER_SEC` from the source configuration. -/
def ALGO_STEPS_PER_SEC : ℚ := 24

/-- `step_interval = 1.0 / ALGO_STEPS_PER_SEC` from `update_algo`. -/
def step_interval : ℚ := 1 / ALGO_STEPS_PER_SEC

/-- Algorithm-side pacing state: displayed array, finish timestamp, the
accumulator `_algo_step_timer` and the number of generator Steps consumed
so far (the generator position). -/
structure AlgoState where
  arr : List Int
  finish_time : Option ℚ
  timer : ℚ
  pos : Nat
deriving DecidableEq

/-- The Step the generator yields at position `k` (the generator is the
list of its Steps; positions past the end mean `StopIteration`). -/
def stepAt (steps : List Step) (k : Nat) : Step :=
  steps.getD k ⟨[], none, none, none, ""⟩

/-- The `while self._algo_step_timer >= step_interval` loop of
`update_algo`: subtract the interval, consume the next Step (syncing the
displayed array and stamping `finish_time` on `done`), or stamp
`finish_time` and break on `StopIteration`. -/
def algoDrain (steps : List Step) (now : ℚ) (st : AlgoState) : AlgoState :=
  if h : step_interval ≤ st.timer then
    if st.pos < steps.length then
      let step := stepAt steps st.pos
      let ft := if step.action = "done" ∧ st.finish_time = none then some now else st.finish_time
      algoDrain steps now ⟨step.array, ft, st.timer - step_interval, st.pos + 1⟩
    else
      ⟨st.arr, if st.finish_time = none then some now else st.finish_time,
        st.timer - step_interval, st.pos⟩
  else st
termination_by (⌊st.timer * ALGO_STEPS_PER_SEC⌋).toNat
decreasing_by
  have h1 : (1 : ℚ) ≤ st.timer * ALGO_STEPS_PER_SEC := by
    have h2 := mul_le_mul_of_nonneg_right h (by norm_num [ALGO_STEPS_PER_SEC] : (0 : ℚ) ≤ ALGO_STEPS_PER_SEC)
    rw [step_interval] at h2
    rw [div_mul_cancel₀] at h2
    · exact h2
    · norm_num [ALGO_STEPS_PER_SEC]
  have h2 : (1 : ℤ) ≤ ⌊st.timer * ALGO_STEPS_PER_SEC⌋ := Int.le_floor.mpr (by exact_mod_cast h1)
  have h3 : ⌊(st.timer - step_interval) * ALGO_STEPS_PER_SEC⌋ = ⌊st.timer * ALGO_STEPS_PER_SEC⌋ - 1 := by
    have h4 : (st.timer - step_interval) * ALGO_STEPS_PER_SEC = st.timer * ALGO_STEPS_PER_SEC - 1 := by
      rw [step_interval, ALGO_STEPS_PER_SEC]; ring
    rw [h4, Int.floor_sub_one]
  simp only [h3]
  omega

/-- `YouVsQuickSort.update_algo`: do nothing when finished or paused,
otherwise add `dt` to the accumulator and drain it. -/
def update_algo (steps : List Step) (paused : Bool) (now : ℚ) (st : AlgoState) (dt : ℚ) : AlgoState :=
  if st.finish_time.isSome || paused then st
  else algoDrain steps now ⟨st.arr, st.finish_time, st.timer + dt, st.pos⟩

/-- A sequence of frame ticks, each with its `dt` and the pause flag in
effect for that tick. -/
def runTicks (steps : List Step) (now : ℚ) (st : AlgoState) (ticks : List (ℚ × Bool)) : AlgoState :=
  ticks.foldl (fun s t => update_algo steps t.2 now s t.1) st

/-- Total unpaused time of a tick sequence. -/
def effSum (ticks : List (ℚ × Bool)) : ℚ :=
  ((ticks.filter (fun t => !t.2)).map Prod.fst).sum

/-- The pacing invariant state after `acc` seconds of unpaused time
starting from the freshly reset state `⟨a0, none, 0, 0⟩`: the position
is the number of whole step intervals in `acc`, the timer holds the
residue, the displayed array is the last consumed Step's snapshot, and
the side has not finished. -/
def paceState (steps : List Step) (a0 : List Int) (acc : ℚ) : AlgoState :=
  ⟨if (⌊acc / step_interval⌋).toNat = 0 then a0
    else (stepAt steps ((⌊acc / step_interval⌋).toNat - 1)).array,
   none, acc - ((⌊acc / step_interval⌋).toNat : ℚ) * step_interval,
   (⌊acc / step_interval⌋).toNat⟩

/-- A whole sequence of player clicks processed by the move validator,
each click carrying the resolved bar index and its wall-clock time. -/
def apply_clicks (s : SideState) (clicks : List (Option Nat × ℚ)) : SideState :=
  clicks.foldl (fun st c => handle_click st c.1 c.2) s

/-- Structural invariant of every non-`done` Step the generator yields,
relative to the constant array length `n`: a classified action, the
`pivot_index` and `j` fields valid positions when present, the `i` field
a valid position or the Lomuto initial boundary `-1`, and `swap` Steps
carrying two distinct nonnegative positions. -/
def StepInv (n : Nat) (s : Step) : Prop :=
  s.array.length = n ∧
  (s.action = "pivot" ∨ s.action = "compare" ∨ s.action = "swap" ∨ s.action = "partition") ∧
  (∀ v : Int, s.pivot_index = some v → 0 ≤ v ∧ v < (n : Int)) ∧
  (∀ v : Int, s.j = some v → 0 ≤ v ∧ v < (n : Int)) ∧
  (∀ v : Int, s.i = some v → -1 ≤ v ∧ v < (n : Int)) ∧
  (s.action = "swap" → ∃ a b : Int, s.i = some a ∧ s.j = some b ∧ a ≠ b ∧ 0 ≤ a)

/-! ### Facts about `listSwap` -/

theorem listSwap_length (l : List Int) (a b : Nat) : (listSwap l a b).length = l.length := by
  unfold listSwap
  rcases h1 : l[a]? with _ | x <;> rcases h2 : l[b]? with _ | y <;> simp

theorem listSwap_eq_set (l : List Int) (a b : Nat) (ha : a < l.length) (hb : b < l.length) :
    listSwap l a b = (l.set a (l.getD b 0)).set b (l.getD a 0) := by
  unfold listSwap
  rw [List.getElem?_eq_getElem ha, List.getElem?_eq_getElem hb,
    List.getD_eq_getElem l 0 ha, List.getD_eq_getElem l 0 hb]

theorem cons_set_perm (t : List Int) : ∀ (b : Nat) (x : Int), b < t.length →
    (t.getD b 0 :: t.set b x).Perm (x :: t) := by
  induction t with
  | nil => intro b x hb; simp at hb
  | cons y s ih =>
    intro b x hb
    match b with
    | 0 => simpa using List.Perm.swap x y s
    | Nat.succ c =>
      have hc : c < s.length := by simpa using hb
      show (s.getD c 0 :: y :: s.set c x).Perm (x :: y :: s)
      exact ((List.Perm.swap y (s.getD c 0) (s.set c x)).trans
        ((ih c x hc).cons y)).trans (List.Perm.swap x y s)

theorem swap_set_perm : ∀ (l : List Int) (a b : Nat), a < l.length → b < l.length →
    ((l.set a (l.getD b 0)).set b (l.getD a 0)).Perm l := by
  intro l
  induction l with
  | nil => intro a b ha; simp at ha
  | cons x t ih =>
    intro a b ha hb
    match a, b with
    | 0, 0 => simp
    | 0, Nat.succ c =>
      have hc : c < t.length := by simpa using hb
      simpa using cons_set_perm t c x hc
    | Nat.succ c, 0 =>
      have hc : c < t.length := by simpa using ha
      simpa using cons_set_perm t c x hc
    | Nat.succ c, Nat.succ d =>
      have hc : c < t.length := by simpa using ha
      have hd : d < t.length := by simpa using hb
      simpa using List.Perm.cons x (ih c d hc hd)

theorem listSwap_perm (l : List Int) (a b : Nat) (ha : a < l.length) (hb : b < l.length) :
    (listSwap l a b).Perm l := by
  rw [listSwap_eq_set l a b ha hb]
  exact swap_set_perm l a b ha hb

theorem listSwap_getD_fst (l : List Int) (a b : Nat) (ha : a < l.length) (hb : b < l.length) :
    (listSwap l a b).getD a 0 = l.getD b 0 := by
  rw [listSwap_eq_set l a b ha hb, List.getD_eq_getElem?_getD]
  by_cases hab : a = b
  · subst hab
    rw [List.getElem?_set_self (by simpa using ha)]
    rfl
  · rw [List.getElem?_set_ne (fun h => hab h.symm), List.getElem?_set_self ha,
      Option.getD_some]

theorem listSwap_getD_snd (l : List Int) (a b : Nat) (ha : a < l.length) (hb : b < l.length) :
    (listSwap l a b).getD b 0 = l.getD a 0 := by
  rw [listSwap_eq_set l a b ha hb, List.getD_eq_getElem?_getD,
    List.getElem?_set_self (by simpa using hb), Option.getD_some]

theorem listSwap_getD_other (l : List Int) (a b k : Nat) (ha : a < l.length) (hb : b < l.length)
    (hka : k ≠ a) (hkb : k ≠ b) : (listSwap l a b).getD k 0 = l.getD k 0 := by
  rw [listSwap_eq_set l a b ha hb, List.getD_eq_getElem?_getD,
    List.getElem?_set_ne (fun h => hkb h.symm), List.getElem?_set_ne (fun h => hka h.symm),
    List.getD_eq_getElem?_getD]

/-! ### Unfolding equations for `partitionLoop` -/

theorem partitionLoop_succ_swap (pivot : Int) (hi n : Nat) (arr : List Int) (i : Int) (j : Nat)
    (h1 : arr.getD j 0 ≤ pivot) (h2 : i + 1 ≠ (j : Int)) :
    partitionLoop pivot hi (Nat.succ n) arr i j =
      (⟨arr, some i, some (j : Int), some (hi : Int), "compare"⟩ ::
        ⟨listSwap arr (i + 1).toNat j, some (i + 1), some (j : Int), some (hi : Int), "swap"⟩ ::
        (partitionLoop pivot hi n (listSwap arr (i + 1).toNat j) (i + 1) (j + 1)).1,
       (partitionLoop pivot hi n (listSwap arr (i + 1).toNat j) (i + 1) (j + 1)).2.1,
       (partitionLoop pivot hi n (listSwap arr (i + 1).toNat j) (i + 1) (j + 1)).2.2) := by
  simp only [partitionLoop, if_pos h1, if_pos h2]

theorem partitionLoop_succ_noswap (pivot : Int) (hi n : Nat) (arr : List Int) (i : Int) (j : Nat)
    (h1 : arr.getD j 0 ≤ pivot) (h2 : ¬ i + 1 ≠ (j : Int)) :
    partitionLoop pivot hi (Nat.succ n) arr i j =
      (⟨arr, some i, some (j : Int), some (hi : Int), "compare"⟩ ::
        (partitionLoop pivot hi n arr (i + 1) (j + 1)).1,
       (partitionLoop pivot hi n arr (i + 1) (j + 1)).2.1,
       (partitionLoop pivot hi n arr (i + 1) (j + 1)).2.2) := by
  simp only [partitionLoop, if_pos h1, if_neg h2]

theorem partitionLoop_succ_gt (pivot : Int) (hi n : Nat) (arr : List Int) (i : Int) (j : Nat)
    (h1 : ¬ arr.getD j 0 ≤ pivot) :
    partitionLoop pivot hi (Nat.succ n) arr i j =
      (⟨arr, some i, some (j : Int), some (hi : Int), "compare"⟩ ::
        (partitionLoop pivot hi n arr i (j + 1)).1,
       (partitionLoop pivot hi n arr i (j + 1)).2.1,
       (partitionLoop pivot hi n arr i (j + 1)).2.2) := by
  simp only [partitionLoop, if_neg h1]

/-- Main invariant of the Lomuto scan loop.  Starting from boundary `i`,
scan index `j` with `n = hi - j` iterations left, assuming every element
strictly between the boundary and the scan index exceeds the pivot, the
loop preserves length and multiset, only touches positions in
`(i, hi)`, ends with a boundary in `[i, hi)`, separates the scanned
range into a `≤ pivot` prefix and a `> pivot` suffix, and every Step it
yields is a well-formed `compare`/`swap` snapshot. -/
theorem partitionLoop_spec (pivot : Int) (hi : Nat) :
    ∀ (n : Nat) (arr : List Int) (i : Int) (j : Nat),
      j + n = hi → hi < arr.length → (-1 : Int) ≤ i → i < (j : Int) →
      (∀ k : Nat, i < (k : Int) → k < j → pivot < arr.getD k 0) →
      ((partitionLoop pivot hi n arr i j).2.1.length = arr.length) ∧
      ((partitionLoop pivot hi n arr i j).2.1.Perm arr) ∧
      (∀ k : Nat, ((k : Int) ≤ i ∨ hi ≤ k) →
          (partitionLoop pivot hi n arr i j).2.1.getD k 0 = arr.getD k 0) ∧
      (i ≤ (partitionLoop pivot hi n arr i j).2.2 ∧
          (partitionLoop pivot hi n arr i j).2.2 < (hi : Int)) ∧
      (∀ k : Nat, i < (k : Int) → (k : Int) ≤ (partitionLoop pivot hi n arr i j).2.2 →
          (partitionLoop pivot hi n arr i j).2.1.getD k 0 ≤ pivot) ∧
      (∀ k : Nat, (partitionLoop pivot hi n arr i j).2.2 < (k : Int) → k < hi →
          pivot < (partitionLoop pivot hi n arr i j).2.1.getD k 0) ∧
      (∀ P : Int → Prop, (∀ k : Nat, i < (k : Int) → k < hi → P (arr.getD k 0)) →
          ∀ k : Nat, i < (k : Int) → k < hi →
            P ((partitionLoop pivot hi n arr i j).2.1.getD k 0)) ∧
      (∀ s ∈ (partitionLoop pivot hi n arr i j).1,
          StepInv arr.length s ∧ s.array.Perm arr ∧ s.pivot_index = some (hi : Int) ∧
          (s.action = "compare" ∨ s.action = "swap")) := by
  intro n
  induction n with
  | zero =>
    intro arr i j hj hlen him hij hB
    have hjhi : j = hi := by omega
    subst hjhi
    refine ⟨rfl, List.Perm.refl arr, fun k _ => rfl, ⟨le_refl i, hij⟩, ?_, ?_, ?_, ?_⟩
    · intro k hk1 hk2
      exact ((not_le.mpr hk1) hk2).elim
    · intro k hk1 hk2
      exact hB k hk1 hk2
    · intro P hP k hk1 hk2
      exact hP k hk1 hk2
    · intro s hs
      exact absurd hs (List.not_mem_nil s)
  | succ n IH =>
    intro arr i j hj hlen him hij hB
    have hjhi : j < hi := by omega
    have hjlen : j < arr.length := by omega
    by_cases hc : arr.getD j 0 ≤ pivot
    · by_cases hne : i + 1 ≠ (j : Int)
      · -- swap branch
        rw [partitionLoop_succ_swap pivot hi n arr i j hc hne]
        have hp : (((i + 1).toNat : Nat) : Int) = i + 1 := Int.toNat_of_nonneg (by omega)
        have hplt : (i + 1).toNat < j := by omega
        have hplen : (i + 1).toNat < arr.length := by omega
        have hlen1 : (listSwap arr (i + 1).toNat j).length = arr.length :=
          listSwap_length arr (i + 1).toNat j
        have hperm1 : (listSwap arr (i + 1).toNat j).Perm arr :=
          listSwap_perm arr (i + 1).toNat j hplen hjlen
        have hg1 : (listSwap arr (i + 1).toNat j).getD (i + 1).toNat 0 = arr.getD j 0 :=
          listSwap_getD_fst arr (i + 1).toNat j hplen hjlen
        have hg2 : (listSwap arr (i + 1).toNat j).getD j 0 = arr.getD (i + 1).toNat 0 :=
          listSwap_getD_snd arr (i + 1).toNat j hplen hjlen
        have hg3 : ∀ k : Nat, k ≠ (i + 1).toNat → k ≠ j →
            (listSwap arr (i + 1).toNat j).getD k 0 = arr.getD k 0 :=
          fun k hk1 hk2 => listSwap_getD_other arr (i + 1).toNat j k hplen hjlen hk1 hk2
        have hB1 : ∀ k : Nat, i + 1 < (k : Int) → k < j + 1 →
            pivot < (listSwap arr (i + 1).toNat j).getD k 0 := by
          intro k hk1 hk2
          by_cases hkj : k = j
          · subst hkj
            rw [hg2]
            exact hB (i + 1).toNat (by omega) hplt
          · rw [hg3 k (by omega) hkj]
            exact hB k (by omega) (by omega)
        obtain ⟨ih1, ih2, ih3, ih4, ih5, ih6, ih7, ih8⟩ :=
          IH (listSwap arr (i + 1).toNat j) (i + 1) (j + 1) (by omega) (by omega)
            (by omega) (by omega) hB1
        refine ⟨ih1.trans hlen1, ih2.trans hperm1, ?_, ⟨le_trans (by omega) ih4.1, ih4.2⟩, ?_, ?_, ?_, ?_⟩
        · intro k hk
          rw [ih3 k (by omega)]
          exact hg3 k (by omega) (by omega)
        · intro k hk1 hk2
          by_cases hk : (k : Int) ≤ i + 1
          · have hkp : k = (i + 1).toNat := by omega
            rw [ih3 k (by omega), hkp, hg1]
            exact hc
          · exact ih5 k (by omega) hk2
        · intro k hk1 hk2
          exact ih6 k hk1 hk2
        · intro P hP k hk1 hk2
          have hP1 : ∀ k : Nat, i + 1 < (k : Int) → k < hi →
              P ((listSwap arr (i + 1).toNat j).getD k 0) := by
            intro m hm1 hm2
            by_cases hmj : m = j
            · subst hmj
              rw [hg2]
              exact hP (i + 1).toNat (by omega) (by omega)
            · rw [hg3 m (by omega) hmj]
              exact hP m (by omega) hm2
          by_cases hk : (k : Int) ≤ i + 1
          · have hkp : k = (i + 1).toNat := by omega
            rw [ih3 k (by omega), hkp, hg1]
            exact hP j (by omega) (by omega)
          · exact ih7 P hP1 k (by omega) hk2
        · intro s hs
          simp only [List.mem_cons] at hs
          rcases hs with rfl | rfl | hs
          · refine ⟨⟨rfl, Or.inr (Or.inl rfl), ?_, ?_, ?_, ?_⟩, List.Perm.refl arr, rfl,
              Or.inl rfl⟩
            · intro v hv
              obtain rfl := Option.some.inj hv
              omega
            · intro v hv
              obtain rfl := Option.some.inj hv
              omega
            · intro v hv
              obtain rfl := Option.some.inj hv
              omega
            · intro habs
              simp at habs
          · refine ⟨⟨hlen1, Or.inr (Or.inr (Or.inl rfl)), ?_, ?_, ?_, ?_⟩, hperm1, rfl,
              Or.inr rfl⟩
            · intro v hv
              obtain rfl := Option.some.inj hv
              omega
            · intro v hv
              obtain rfl := Option.some.inj hv
              omega
            · intro v hv
              obtain rfl := Option.some.inj hv
              omega
            · intro _
              exact ⟨i + 1, (j : Int), rfl, rfl, hne, by omega⟩
          · obtain ⟨hsi, hsp, hspv, hsa⟩ := ih8 s hs
            exact ⟨hlen1 ▸ hsi, hsp.trans hperm1, hspv, hsa⟩
      · -- element ≤ pivot but boundary meets scan index: no swap
        rw [partitionLoop_succ_noswap pivot hi n arr i j hc hne]
        have hij2 : i + 1 = (j : Int) := by omega
        have hB1 : ∀ k : Nat, i + 1 < (k : Int) → k < j + 1 → pivot < arr.getD k 0 := by
          intro k hk1 hk2
          omega
        obtain ⟨ih1, ih2, ih3, ih4, ih5, ih6, ih7, ih8⟩ :=
          IH arr (i + 1) (j + 1) (by omega) hlen (by omega) (by omega) hB1
        refine ⟨ih1, ih2, ?_, ⟨le_trans (by omega) ih4.1, ih4.2⟩, ?_, ?_, ?_, ?_⟩
        · intro k hk
          exact ih3 k (by omega)
        · intro k hk1 hk2
          by_cases hk : (k : Int) ≤ i + 1
          · have hkj : k = j := by omega
            rw [ih3 k (by omega), hkj]
            exact hc
          · exact ih5 k (by omega) hk2
        · intro k hk1 hk2
          exact ih6 k hk1 hk2
        · intro P hP k hk1 hk2
          have hP1 : ∀ m : Nat, i + 1 < (m : Int) → m < hi → P (arr.getD m 0) := by
            intro m hm1 hm2
            exact hP m (by omega) hm2
          by_cases hk : (k : Int) ≤ i + 1
          · have hkj : k = j := by omega
            rw [ih3 k (by omega), hkj]
            exact hP j (by omega) (by omega)
          · exact ih7 P hP1 k (by omega) hk2
        · intro s hs
          simp only [List.mem_cons] at hs
          rcases hs with rfl | hs
          · refine ⟨⟨rfl, Or.inr (Or.inl rfl), ?_, ?_, ?_, ?_⟩, List.Perm.refl arr, rfl,
              Or.inl rfl⟩
            · intro v hv
              obtain rfl := Option.some.inj hv
              omega
            · intro v hv
              obtain rfl := Option.some.inj hv
              omega
            · intro v hv
              obtain rfl := Option.some.inj hv
              omega
            · intro habs
              simp at habs
          · exact ih8 s hs
    · -- element > pivot: just a compare
      rw [partitionLoop_succ_gt pivot hi n arr i j hc]
      have hB1 : ∀ k : Nat, i < (k : Int) → k < j + 1 → pivot < arr.getD k 0 := by
        intro k hk1 hk2
        by_cases hkj : k = j
        · subst hkj
          omega
        · exact hB k hk1 (by omega)
      obtain ⟨ih1, ih2, ih3, ih4, ih5, ih6, ih7, ih8⟩ :=
        IH arr i (j + 1) (by omega) hlen him (by omega) hB1
      refine ⟨ih1, ih2, ih3, ih4, ih5, ih6, ?_, ?_⟩
      · intro P hP k hk1 hk2
        exact ih7 P hP k hk1 hk2
      · intro s hs
        simp only [List.mem_cons] at hs
        rcases hs with rfl | hs
        · refine ⟨⟨rfl, Or.inr (Or.inl rfl), ?_, ?_, ?_, ?_⟩, List.Perm.refl arr, rfl,
            Or.inl rfl⟩
          · intro v hv
            obtain rfl := Option.some.inj hv
            omega
          · intro v hv
            obtain rfl := Option.some.inj hv
            omega
          · intro v hv
            obtain rfl := Option.some.inj hv
            omega
          · intro habs
            simp at habs
        · exact ih8 s hs

/-- `partitionSteps` unfolded, with the scan-loop result named. -/
theorem partitionSteps_eq (arr : List Int) (lo hi : Nat) :
    partitionSteps arr lo hi =
      (let res := partitionLoop (arr.getD hi 0) hi (hi - lo) arr ((lo : Int) - 1) lo
       if res.2.2 + 1 ≠ (hi : Int) then
         (⟨arr, none, none, some (hi : Int), "pivot"⟩ :: res.1 ++
            [⟨listSwap res.2.1 (res.2.2 + 1).toNat hi, some (res.2.2 + 1), some (hi : Int),
              some (hi : Int), "partition"⟩],
          listSwap res.2.1 (res.2.2 + 1).toNat hi, (res.2.2 + 1).toNat)
       else
         (⟨arr, none, none, some (hi : Int), "pivot"⟩ :: res.1, res.2.1,
          (res.2.2 + 1).toNat)) := rfl

/-- Full functional specification of one Lomuto partition pass on the
range `[lo, hi]`: length and multiset preserved, positions outside the
range untouched, the returned pivot position `p ∈ [lo, hi]` holds the
old `arr[hi]`, everything left of `p` in the range is `≤` it and
everything right of it is `>` it, any property of the range's values is
preserved, and all yielded Steps are well formed snapshots that are
permutations of `arr`. -/
theorem partitionSteps_spec (arr : List Int) (lo hi : Nat) (hlo : lo < hi)
    (hlen : hi < arr.length) :
    (partitionSteps arr lo hi).2.1.length = arr.length ∧
    (partitionSteps arr lo hi).2.1.Perm arr ∧
    (lo ≤ (partitionSteps arr lo hi).2.2 ∧ (partitionSteps arr lo hi).2.2 ≤ hi) ∧
    (∀ k : Nat, (k < lo ∨ hi < k) → (partitionSteps arr lo hi).2.1.getD k 0 = arr.getD k 0) ∧
    (partitionSteps arr lo hi).2.1.getD (partitionSteps arr lo hi).2.2 0 = arr.getD hi 0 ∧
    (∀ k : Nat, lo ≤ k → k < (partitionSteps arr lo hi).2.2 →
        (partitionSteps arr lo hi).2.1.getD k 0 ≤ arr.getD hi 0) ∧
    (∀ k : Nat, (partitionSteps arr lo hi).2.2 < k → k ≤ hi →
        arr.getD hi 0 < (partitionSteps arr lo hi).2.1.getD k 0) ∧
    (∀ P : Int → Prop, (∀ k : Nat, lo ≤ k → k ≤ hi → P (arr.getD k 0)) →
        ∀ k : Nat, lo ≤ k → k ≤ hi → P ((partitionSteps arr lo hi).2.1.getD k 0)) ∧
    (∀ s ∈ (partitionSteps arr lo hi).1, StepInv arr.length s ∧ s.array.Perm arr) := by
  obtain ⟨l1, l2, l3, l4, l5, l6, l7, l8⟩ :=
    partitionLoop_spec (arr.getD hi 0) hi (hi - lo) arr ((lo : Int) - 1) lo (by omega) hlen
      (by omega) (by omega) (fun k hk1 hk2 => absurd hk2 (by omega))
  generalize hgen : partitionLoop (arr.getD hi 0) hi (hi - lo) arr ((lo : Int) - 1) lo = L at l1 l2 l3 l4 l5 l6 l7 l8
  have hLlen : hi < L.2.1.length := by rw [l1]; exact hlen
  by_cases hIf : L.2.2 + 1 ≠ (hi : Int)
  · have e1 : (partitionSteps arr lo hi).1 =
        ⟨arr, none, none, some (hi : Int), "pivot"⟩ :: L.1 ++
          [⟨listSwap L.2.1 (L.2.2 + 1).toNat hi, some (L.2.2 + 1), some (hi : Int),
            some (hi : Int), "partition"⟩] := by
      simp only [partitionSteps_eq]
      rw [hgen, if_pos hIf]
    have e2 : (partitionSteps arr lo hi).2.1 = listSwap L.2.1 (L.2.2 + 1).toNat hi := by
      simp only [partitionSteps_eq]
      rw [hgen, if_pos hIf]
    have e3 : (partitionSteps arr lo hi).2.2 = (L.2.2 + 1).toNat := by
      simp only [partitionSteps_eq]
      rw [hgen, if_pos hIf]
    rw [e1, e2, e3]
    have hpn : (((L.2.2 + 1).toNat : Nat) : Int) = L.2.2 + 1 := Int.toNat_of_nonneg (by omega)
    have hplt : (L.2.2 + 1).toNat < hi := by omega
    have hplo : lo ≤ (L.2.2 + 1).toNat := by omega
    have hplen : (L.2.2 + 1).toNat < L.2.1.length := by omega
    have hsl : (listSwap L.2.1 (L.2.2 + 1).toNat hi).length = L.2.1.length :=
      listSwap_length L.2.1 (L.2.2 + 1).toNat hi
    have hsp : (listSwap L.2.1 (L.2.2 + 1).toNat hi).Perm L.2.1 :=
      listSwap_perm L.2.1 (L.2.2 + 1).toNat hi hplen hLlen
    have hga : (listSwap L.2.1 (L.2.2 + 1).toNat hi).getD (L.2.2 + 1).toNat 0 = L.2.1.getD hi 0 :=
      listSwap_getD_fst L.2.1 (L.2.2 + 1).toNat hi hplen hLlen
    have hgb : (listSwap L.2.1 (L.2.2 + 1).toNat hi).getD hi 0 = L.2.1.getD (L.2.2 + 1).toNat 0 :=
      listSwap_getD_snd L.2.1 (L.2.2 + 1).toNat hi hplen hLlen
    have hgo : ∀ k : Nat, k ≠ (L.2.2 + 1).toNat → k ≠ hi →
        (listSwap L.2.1 (L.2.2 + 1).toNat hi).getD k 0 = L.2.1.getD k 0 :=
      fun k h1 h2 => listSwap_getD_other L.2.1 (L.2.2 + 1).toNat hi k hplen hLlen h1 h2
    have hhi : L.2.1.getD hi 0 = arr.getD hi 0 := l3 hi (Or.inr (le_refl hi))
    refine ⟨hsl.trans l1, hsp.trans l2, ⟨hplo, by omega⟩, ?_, ?_, ?_, ?_, ?_, ?_⟩
    · intro k hk
      rw [hgo k (by omega) (by omega)]
      exact l3 k (by omega)
    · rw [hga]
      exact hhi
    · intro k hk1 hk2
      rw [hgo k (by omega) (by omega)]
      exact l5 k (by omega) (by omega)
    · intro k hk1 hk2
      by_cases hkhi : k = hi
      · subst hkhi
        rw [hgb]
        exact l6 (L.2.2 + 1).toNat (by omega) hplt
      · rw [hgo k (by omega) hkhi]
        exact l6 k (by omega) (by omega)
    · intro P hP k hk1 hk2
      have hPL : ∀ m : Nat, (lo : Int) - 1 < (m : Int) → m < hi → P (L.2.1.getD m 0) :=
        l7 P (fun m hm1 hm2 => hP m (by omega) (by omega))
      by_cases hkp : k = (L.2.2 + 1).toNat
      · subst hkp
        rw [hga, hhi]
        exact hP hi (by omega) (le_refl hi)
      · by_cases hkhi : k = hi
        · subst hkhi
          rw [hgb]
          exact hPL (L.2.2 + 1).toNat (by omega) hplt
        · rw [hgo k hkp hkhi]
          exact hPL k (by omega) (by omega)
    · intro s hs
      rcases List.mem_cons.mp hs with rfl | hs2
      · refine ⟨⟨rfl, Or.inl rfl, ?_, ?_, ?_, ?_⟩, List.Perm.refl arr⟩
        · intro v hv
          obtain rfl := Option.some.inj hv
          omega
        · intro v hv
          exact absurd hv (by simp)
        · intro v hv
          exact absurd hv (by simp)
        · intro habs
          simp at habs
      · rcases List.mem_append.mp hs2 with hs3 | hs4
        · obtain ⟨hs5, hs6, _, _⟩ := l8 s hs3
          exact ⟨hs5, hs6⟩
        · obtain rfl := List.mem_singleton.mp hs4
          refine ⟨⟨hsl.trans l1, Or.inr (Or.inr (Or.inr rfl)), ?_, ?_, ?_, ?_⟩, hsp.trans l2⟩
          · intro v hv
            obtain rfl := Option.some.inj hv
            omega
          · intro v hv
            obtain rfl := Option.some.inj hv
            omega
          · intro v hv
            obtain rfl := Option.some.inj hv
            omega
          · intro habs
            simp at habs
  · have e1 : (partitionSteps arr lo hi).1 =
        ⟨arr, none, none, some (hi : Int), "pivot"⟩ :: L.1 := by
      simp only [partitionSteps_eq]
      rw [hgen, if_neg hIf]
    have e2 : (partitionSteps arr lo hi).2.1 = L.2.1 := by
      simp only [partitionSteps_eq]
      rw [hgen, if_neg hIf]
    have e3 : (partitionSteps arr lo hi).2.2 = (L.2.2 + 1).toNat := by
      simp only [partitionSteps_eq]
      rw [hgen, if_neg hIf]
    rw [e1, e2, e3]
    have hpe : (L.2.2 + 1).toNat = hi := by omega
    refine ⟨l1, l2, ⟨by omega, by omega⟩, ?_, ?_, ?_, ?_, ?_, ?_⟩
    · intro k hk
      exact l3 k (by omega)
    · rw [hpe]
      exact l3 hi (Or.inr (le_refl hi))
    · intro k hk1 hk2
      exact l5 k (by omega) (by omega)
    · intro k hk1 hk2
      omega
    · intro P hP k hk1 hk2
      by_cases hkhi : k = hi
      · rw [hkhi, l3 hi (Or.inr (le_refl hi))]
        exact hP hi (by omega) (le_refl hi)
      · exact l7 P (fun m hm1 hm2 => hP m (by omega) (by omega)) k (by omega) (by omega)
    · intro s hs
      rcases List.mem_cons.mp hs with rfl | hs2
      · refine ⟨⟨rfl, Or.inl rfl, ?_, ?_, ?_, ?_⟩, List.Perm.refl arr⟩
        · intro v hv
          obtain rfl := Option.some.inj hv
          omega
        · intro v hv
          exact absurd hv (by simp)
        · intro v hv
          exact absurd hv (by simp)
        · intro habs
          simp at habs
      · obtain ⟨hs5, hs6, _, _⟩ := l8 s hs2
        exact ⟨hs5, hs6⟩

/-- `_quicksort` does nothing on an empty or singleton range. -/
theorem quicksortRec_stop (fuel : Nat) (arr : List Int) (lo hi : Nat) (h : hi ≤ lo) :
    quicksortRec fuel arr lo hi = ([], arr) := by
  cases fuel with
  | zero => rfl
  | succ fuel => simp [quicksortRec, Nat.not_lt.mpr h]

/-- The recursive case of `_quicksort` unfolded. -/
theorem quicksortRec_succ (fuel : Nat) (arr : List Int) (lo hi : Nat) (h : lo < hi) :
    quicksortRec (fuel + 1) arr lo hi =
      ((partitionSteps arr lo hi).1 ++
        (quicksortRec fuel (partitionSteps arr lo hi).2.1 lo
          ((partitionSteps arr lo hi).2.2 - 1)).1 ++
        (quicksortRec fuel
          (quicksortRec fuel (partitionSteps arr lo hi).2.1 lo
            ((partitionSteps arr lo hi).2.2 - 1)).2
          ((partitionSteps arr lo hi).2.2 + 1) hi).1,
       (quicksortRec fuel
         (quicksortRec fuel (partitionSteps arr lo hi).2.1 lo
           ((partitionSteps arr lo hi).2.2 - 1)).2
         ((partitionSteps arr lo hi).2.2 + 1) hi).2) := by
  simp only [quicksortRec, if_pos h]

/-- Specification of `_quicksort` when the range is trivial. -/
theorem quicksortRec_spec_stop (fuel : Nat) (arr : List Int) (lo hi : Nat) (h : ¬ lo < hi) :
    (quicksortRec fuel arr lo hi).2.length = arr.length ∧
    (quicksortRec fuel arr lo hi).2.Perm arr ∧
    (∀ k : Nat, (k < lo ∨ hi < k) → (quicksortRec fuel arr lo hi).2.getD k 0 = arr.getD k 0) ∧
    (∀ k1 k2 : Nat, lo ≤ k1 → k1 ≤ k2 → k2 ≤ hi →
        (quicksortRec fuel arr lo hi).2.getD k1 0 ≤ (quicksortRec fuel arr lo hi).2.getD k2 0) ∧
    (∀ P : Int → Prop, (∀ k : Nat, lo ≤ k → k ≤ hi → P (arr.getD k 0)) →
        ∀ k : Nat, lo ≤ k → k ≤ hi → P ((quicksortRec fuel arr lo hi).2.getD k 0)) ∧
    (∀ s ∈ (quicksortRec fuel arr lo hi).1, StepInv arr.length s ∧ s.array.Perm arr) := by
  rw [quicksortRec_stop fuel arr lo hi (by omega)]
  refine ⟨rfl, List.Perm.refl arr, fun k _ => rfl, ?_, ?_, ?_⟩
  · intro k1 k2 h1 h2 h3
    have hk : k1 = k2 := by omega
    rw [hk]
  · intro P hP k hk1 hk2
    exact hP k hk1 hk2
  · intro s hs
    exact absurd hs (List.not_mem_nil s)

/-- Full functional specification of `_quicksort` on the range
`[lo, hi]`, given adequate fuel: length and multiset preserved,
positions outside the range untouched, the range weakly sorted, any
property of the range's values preserved, and every yielded Step a
well-formed snapshot that is a permutation of the initial array. -/
theorem quicksortRec_spec : ∀ (fuel : Nat) (arr : List Int) (lo hi : Nat),
    (lo < hi → hi - lo < fuel ∧ hi < arr.length) →
    (quicksortRec fuel arr lo hi).2.length = arr.length ∧
    (quicksortRec fuel arr lo hi).2.Perm arr ∧
    (∀ k : Nat, (k < lo ∨ hi < k) → (quicksortRec fuel arr lo hi).2.getD k 0 = arr.getD k 0) ∧
    (∀ k1 k2 : Nat, lo ≤ k1 → k1 ≤ k2 → k2 ≤ hi →
        (quicksortRec fuel arr lo hi).2.getD k1 0 ≤ (quicksortRec fuel arr lo hi).2.getD k2 0) ∧
    (∀ P : Int → Prop, (∀ k : Nat, lo ≤ k → k ≤ hi → P (arr.getD k 0)) →
        ∀ k : Nat, lo ≤ k → k ≤ hi → P ((quicksortRec fuel arr lo hi).2.getD k 0)) ∧
    (∀ s ∈ (quicksortRec fuel arr lo hi).1, StepInv arr.length s ∧ s.array.Perm arr) := by
  intro fuel
  induction fuel with
  | zero =>
    intro arr lo hi hyp
    by_cases h : lo < hi
    · obtain ⟨h1, _⟩ := hyp h
      omega
    · exact quicksortRec_spec_stop 0 arr lo hi h
  | succ fuel IH =>
    intro arr lo hi hyp
    by_cases h : lo < hi
    · obtain ⟨hfuel, hlen⟩ := hyp h
      obtain ⟨p1, p2, ⟨p3a, p3b⟩, p4, p5, p6, p7, p8, p9⟩ := partitionSteps_spec arr lo hi h hlen
      have e1 : (quicksortRec (fuel + 1) arr lo hi).1 =
          (partitionSteps arr lo hi).1 ++
            (quicksortRec fuel (partitionSteps arr lo hi).2.1 lo
              ((partitionSteps arr lo hi).2.2 - 1)).1 ++
            (quicksortRec fuel
              (quicksortRec fuel (partitionSteps arr lo hi).2.1 lo
                ((partitionSteps arr lo hi).2.2 - 1)).2
              ((partitionSteps arr lo hi).2.2 + 1) hi).1 := by
        rw [quicksortRec_succ fuel arr lo hi h]
      have e2 : (quicksortRec (fuel + 1) arr lo hi).2 =
          (quicksortRec fuel
            (quicksortRec fuel (partitionSteps arr lo hi).2.1 lo
              ((partitionSteps arr lo hi).2.2 - 1)).2
            ((partitionSteps arr lo hi).2.2 + 1) hi).2 := by
        rw [quicksortRec_succ fuel arr lo hi h]
      rw [e1, e2]
      set A1 := (partitionSteps arr lo hi).2.1 with hA1
      set p := (partitionSteps arr lo hi).2.2 with hp
      set A2 := (quicksortRec fuel A1 lo (p - 1)).2 with hA2
      have hyL : lo < p - 1 → (p - 1 - lo < fuel ∧ p - 1 < A1.length) := by
        intro h2
        constructor
        · omega
        · omega
      obtain ⟨q1, q2, q3, q4, q5, q6⟩ := IH A1 lo (p - 1) hyL
      have hA2len : A2.length = arr.length := q1.trans p1
      have hyR : p + 1 < hi → (hi - (p + 1) < fuel ∧ hi < A2.length) := by
        intro h2
        constructor
        · omega
        · omega
      obtain ⟨r1, r2, r3, r4, r5, r6⟩ := IH A2 (p + 1) hi hyR
      set A3 := (quicksortRec fuel A2 (p + 1) hi).2 with hA3
      have hA2at : ∀ k : Nat, p ≤ k → A2.getD k 0 = A1.getD k 0 := by
        intro k hk
        rcases Nat.eq_zero_or_pos p with hp0 | hp0
        · rw [hA2, quicksortRec_stop fuel A1 lo (p - 1) (by omega)]
        · exact q3 k (Or.inr (by omega))
      have hA2perm : A2.Perm A1 := q2
      have hA2p : A2.getD p 0 = arr.getD hi 0 := by
        rw [hA2at p (le_refl p)]
        exact p5
      have hA2le : ∀ k : Nat, lo ≤ k → k < p → A2.getD k 0 ≤ arr.getD hi 0 := by
        intro k hk1 hk2
        exact q5 (fun v => v ≤ arr.getD hi 0)
          (fun m hm1 hm2 => p6 m hm1 (by omega)) k hk1 (by omega)
      have hA2gt : ∀ k : Nat, p < k → k ≤ hi → arr.getD hi 0 < A2.getD k 0 := by
        intro k hk1 hk2
        rw [hA2at k (by omega)]
        exact p7 k hk1 hk2
      have hA3len : A3.length = arr.length := r1.trans hA2len
      have hA3perm : A3.Perm arr := r2.trans (hA2perm.trans p2)
      have hA3at : ∀ k : Nat, k ≤ p → A3.getD k 0 = A2.getD k 0 := by
        intro k hk
        exact r3 k (Or.inl (by omega))
      refine ⟨hA3len, hA3perm, ?_, ?_, ?_, ?_⟩
      · intro k hk
        rw [r3 k (by omega), q3 k (by omega)]
        exact p4 k hk
      · intro k1 k2 hk1 hk12 hk2
        rcases Nat.lt_or_ge k2 p with hk2p | hk2p
        · rw [hA3at k1 (by omega), hA3at k2 (by omega)]
          exact q4 k1 k2 hk1 hk12 (by omega)
        · by_cases hk1p : p + 1 ≤ k1
          · exact r4 k1 k2 hk1p hk12 hk2
          · have hleft : A3.getD k1 0 ≤ arr.getD hi 0 := by
              by_cases hk1e : k1 = p
              · rw [hk1e, hA3at p (le_refl p), hA2p]
              · rw [hA3at k1 (by omega)]
                exact hA2le k1 hk1 (by omega)
            have hright : arr.getD hi 0 ≤ A3.getD k2 0 := by
              by_cases hk2e : k2 = p
              · rw [hk2e, hA3at p (le_refl p), hA2p]
              · have hgt : arr.getD hi 0 < A3.getD k2 0 :=
                  r5 (fun v => arr.getD hi 0 < v)
                    (fun m hm1 hm2 => hA2gt m (by omega) hm2) k2 (by omega) hk2
                exact le_of_lt hgt
            exact le_trans hleft hright
      · intro P hP k hk1 hk2
        have hPA1 : ∀ m : Nat, lo ≤ m → m ≤ hi → P (A1.getD m 0) := p8 P hP
        have hPA2 : ∀ m : Nat, lo ≤ m → m ≤ hi → P (A2.getD m 0) := by
          intro m hm1 hm2
          rcases Nat.lt_or_ge m p with hmp | hmp
          · exact q5 P (fun u hu1 hu2 => hPA1 u hu1 (by omega)) m hm1 (by omega)
          · rw [hA2at m hmp]
            exact hPA1 m hm1 hm2
        rcases Nat.lt_or_ge p k with hkp | hkp
        · exact r5 P (fun u hu1 hu2 => hPA2 u (by omega) hu2) k (by omega) hk2
        · rw [hA3at k hkp]
          exact hPA2 k hk1 hk2
      · intro s hs
        rcases List.mem_append.mp hs with hs1 | hs3
        · rcases List.mem_append.mp hs1 with hs4 | hs5
          · exact p9 s hs4
          · obtain ⟨hq1, hq2⟩ := q6 s hs5
            rw [p1] at hq1
            exact ⟨hq1, hq2.trans p2⟩
        · obtain ⟨hr1, hr2⟩ := r6 s hs3
          rw [hA2len] at hr1
          exact ⟨hr1, hr2.trans (hA2perm.trans p2)⟩
    · exact quicksortRec_spec_stop (fuel + 1) arr lo hi h

/-- The fuel supplied to `quicksortRec` is irrelevant as long as it
dominates the range span, so the fuel-exhaustion branch never shows:
the embedding computes exactly what the unbounded recursion of the
source computes. -/
theorem quicksortRec_fuel_irrelevant : ∀ (fuel fuel' : Nat) (arr : List Int) (lo hi : Nat),
    hi - lo < fuel → hi - lo < fuel' → (lo < hi → hi < arr.length) →
    quicksortRec fuel arr lo hi = quicksortRec fuel' arr lo hi := by
  intro fuel
  induction fuel with
  | zero =>
    intro fuel' arr lo hi hfuel
    exact absurd hfuel (Nat.not_lt_zero _)
  | succ fuel IH =>
    intro fuel' arr lo hi hfuel hfuel' hlenh
    cases fuel' with
    | zero => exact absurd hfuel' (Nat.not_lt_zero _)
    | succ fuel' =>
      by_cases h : lo < hi
      · have hlen : hi < arr.length := hlenh h
        obtain ⟨p1, _, ⟨p3a, p3b⟩, _, _, _, _, _, _⟩ := partitionSteps_spec arr lo hi h hlen
        rw [quicksortRec_succ fuel arr lo hi h, quicksortRec_succ fuel' arr lo hi h]
        have eL := IH fuel' (partitionSteps arr lo hi).2.1 lo ((partitionSteps arr lo hi).2.2 - 1)
          (by omega) (by omega) (by intro h2; omega)
        rw [eL]
        obtain ⟨ql1, _, _, _, _, _⟩ := quicksortRec_spec fuel' (partitionSteps arr lo hi).2.1 lo
          ((partitionSteps arr lo hi).2.2 - 1) (by intro h2; exact ⟨by omega, by omega⟩)
        have eR := IH fuel'
          (quicksortRec fuel' (partitionSteps arr lo hi).2.1 lo
            ((partitionSteps arr lo hi).2.2 - 1)).2
          ((partitionSteps arr lo hi).2.2 + 1) hi (by omega) (by omega)
          (by intro h2; omega)
        rw [eR]
      · rw [quicksortRec_stop (fuel + 1) arr lo hi (by omega),
          quicksortRec_stop (fuel' + 1) arr lo hi (by omega)]

/-- `quicksort_steps` on nonempty input, unfolded. -/
theorem quicksort_steps_nonempty_eq (data : List Int) (hne : data ≠ []) :
    quicksort_steps data =
      (quicksortRec data.length data 0 (data.length - 1)).1 ++
        [⟨(quicksortRec data.length data 0 (data.length - 1)).2, none, none, none, "done"⟩] := by
  simp only [quicksort_steps]
  rw [if_neg (by simpa using hne)]

/-- Master structure of the Step sequence: it is a list of well-formed
non-`done` snapshots, each a permutation of the input, followed by a
single final `done` Step whose array is sorted and a permutation of the
input. -/
theorem quicksort_steps_master (data : List Int) :
    ∃ (pre : List Step) (res : List Int),
      quicksort_steps data = pre ++ [⟨res, none, none, none, "done"⟩] ∧
      res.Perm data ∧ List.Sorted (· ≤ ·) res ∧
      ∀ s ∈ pre, StepInv data.length s ∧ s.array.Perm data := by
  by_cases hne : data = []
  · subst hne
    exact ⟨[], [], rfl, List.Perm.refl [], List.sorted_nil, fun s hs => absurd hs (List.not_mem_nil s)⟩
  · have hpos : 0 < data.length := List.length_pos.mpr hne
    obtain ⟨s1, s2, s3, s4, s5, s6⟩ := quicksortRec_spec data.length data 0 (data.length - 1)
      (by intro h2; exact ⟨by omega, by omega⟩)
    refine ⟨(quicksortRec data.length data 0 (data.length - 1)).1,
      (quicksortRec data.length data 0 (data.length - 1)).2,
      quicksort_steps_nonempty_eq data hne, s2, ?_, s6⟩
    apply List.pairwise_iff_getElem.mpr
    intro a b ha hb hab
    have hab' := s4 a b (Nat.zero_le a) (le_of_lt hab) (by omega)
    rw [List.getD_eq_getElem _ 0 ha, List.getD_eq_getElem _ 0 hb] at hab'
    exact hab'

/-- C1: for every input list of pairwise-distinct integers, the Step
sequence of `quicksort_steps` ends with a Step whose array is the
ascending sort of the input, and the array of every Step in the
sequence is a permutation of the input. -/
theorem c1_generator_sorts (l : List Int) (hd : l.Nodup) :
    (∃ last : Step, (quicksort_steps l).getLast? = some last ∧
      last.array = List.insertionSort (· ≤ ·) l) ∧
    ∀ s ∈ quicksort_steps l, s.array.Perm l := by
  obtain ⟨pre, res, heq, hperm, hsort, hsteps⟩ := quicksort_steps_master l
  constructor
  · refine ⟨⟨res, none, none, none, "done"⟩, ?_, ?_⟩
    · rw [heq]
      exact List.getLast?_concat pre
    · have h1 : List.Sorted (· ≤ ·) (List.insertionSort (· ≤ ·) l) :=
        List.sorted_insertionSort (· ≤ ·) l
      have h2 : (List.insertionSort (· ≤ ·) l).Perm l := List.perm_insertionSort (· ≤ ·) l
      exact List.eq_of_perm_of_sorted (hperm.trans h2.symm) hsort h1
  · intro s hs
    rw [heq] at hs
    rcases List.mem_append.mp hs with hs1 | hs2
    · exact (hsteps s hs1).2
    · obtain rfl := List.mem_singleton.mp hs2
      exact hperm

/-- Witness for C1 at the spec's own scenario input `[3, 1, 2]`. -/
theorem c1_generator_sorts_witness :
    [3, 1, 2].Nodup ∧
    ((∃ last : Step, (quicksort_steps [3, 1, 2]).getLast? = some last ∧
        last.array = List.insertionSort (· ≤ ·) [3, 1, 2]) ∧
      ∀ s ∈ quicksort_steps [3, 1, 2], s.array.Perm [3, 1, 2]) :=
  ⟨by decide, c1_generator_sorts [3, 1, 2] (by decide)⟩

/-- C2: for every input list, the Step sequence contains exactly one
Step with action `done`, and it is the last element. -/
theorem c2_unique_done_last (l : List Int) :
    ((quicksort_steps l).filter (fun s => s.action == "done")).length = 1 ∧
    ∃ last : Step, (quicksort_steps l).getLast? = some last ∧ last.action = "done" := by
  obtain ⟨pre, res, heq, hperm, hsort, hsteps⟩ := quicksort_steps_master l
  rw [heq]
  constructor
  · rw [List.filter_append]
    have hpre : pre.filter (fun s => s.action == "done") = [] := by
      rw [List.filter_eq_nil_iff]
      intro s hs
      obtain ⟨⟨_, hact, _⟩, _⟩ := hsteps s hs
      rcases hact with hh | hh | hh | hh <;> simp [hh]
    rw [hpre]
    simp
  · exact ⟨⟨res, none, none, none, "done"⟩, List.getLast?_concat pre, rfl⟩

/-- Counterexample to C6 as stated: on input `[1, 2]` the generator
yields a `compare` Step with `i = -1` (the initial Lomuto boundary
`lo - 1`), which is non-null yet not a valid position in the Step's
array. -/
theorem c6_counterexample :
    ¬ (∀ s ∈ quicksort_steps [1, 2],
        (∀ v : Int, s.i = some v → 0 ≤ v ∧ v < (s.array.length : Int)) ∧
        (∀ v : Int, s.j = some v → 0 ≤ v ∧ v < (s.array.length : Int)) ∧
        (∀ v : Int, s.pivot_index = some v → 0 ≤ v ∧ v < (s.array.length : Int)) ∧
        (s.action = "done" → s.i = none ∧ s.j = none ∧ s.pivot_index = none)) := by
  intro h
  have hmem : (⟨[1, 2], some (-1), some 0, some 1, "compare"⟩ : Step) ∈ quicksort_steps [1, 2] := by
    decide
  obtain ⟨hneg, _⟩ := ((h _ hmem).1 (-1) rfl)
  omega

/-- C6 (amended): in every Step, non-null `j` and `pivotIndex` fields
are valid positions of the Step's array; a non-null `i` field is a
valid position or the value `-1` (the Lomuto boundary `lo - 1` before
any element has been placed); the `done` Step carries no indices. -/
theorem c6_amended_index_validity (l : List Int) :
    ∀ s ∈ quicksort_steps l,
      (∀ v : Int, s.j = some v → 0 ≤ v ∧ v < (s.array.length : Int)) ∧
      (∀ v : Int, s.pivot_index = some v → 0 ≤ v ∧ v < (s.array.length : Int)) ∧
      (∀ v : Int, s.i = some v → (-1 : Int) ≤ v ∧ v < (s.array.length : Int)) ∧
      (s.action = "done" → s.i = none ∧ s.j = none ∧ s.pivot_index = none) := by
  obtain ⟨pre, res, heq, hperm, hsort, hsteps⟩ := quicksort_steps_master l
  intro s hs
  rw [heq] at hs
  rcases List.mem_append.mp hs with hs1 | hs2
  · obtain ⟨⟨hlen, hact, hpv, hj, hi, _⟩, _⟩ := hsteps s hs1
    refine ⟨?_, ?_, ?_, ?_⟩
    · intro v hv
      rw [hlen]
      exact hj v hv
    · intro v hv
      rw [hlen]
      exact hpv v hv
    · intro v hv
      rw [hlen]
      exact hi v hv
    · intro hdone
      rcases hact with hh | hh | hh | hh <;> rw [hh] at hdone <;> exact absurd hdone (by decide)
  · obtain rfl := List.mem_singleton.mp hs2
    refine ⟨?_, ?_, ?_, fun _ => ⟨rfl, rfl, rfl⟩⟩
    · intro v hv
      exact absurd hv (by simp)
    · intro v hv
      exact absurd hv (by simp)
    · intro v hv
      exact absurd hv (by simp)

/-- Witness for the amended C6 at input `[1, 2]` and its `compare`
Step, whose `i` field is exactly `-1`. -/
theorem c6_amended_index_validity_witness :
    (∀ v : Int, (⟨[1, 2], some (-1), some 0, some 1, "compare"⟩ : Step).j = some v →
        0 ≤ v ∧ v < ((⟨[1, 2], some (-1), some 0, some 1, "compare"⟩ : Step).array.length : Int)) ∧
    (∀ v : Int, (⟨[1, 2], some (-1), some 0, some 1, "compare"⟩ : Step).pivot_index = some v →
        0 ≤ v ∧ v < ((⟨[1, 2], some (-1), some 0, some 1, "compare"⟩ : Step).array.length : Int)) ∧
    (∀ v : Int, (⟨[1, 2], some (-1), some 0, some 1, "compare"⟩ : Step).i = some v →
        (-1 : Int) ≤ v ∧ v < ((⟨[1, 2], some (-1), some 0, some 1, "compare"⟩ : Step).array.length : Int)) ∧
    ((⟨[1, 2], some (-1), some 0, some 1, "compare"⟩ : Step).action = "done" →
        (⟨[1, 2], some (-1), some 0, some 1, "compare"⟩ : Step).i = none ∧
        (⟨[1, 2], some (-1), some 0, some 1, "compare"⟩ : Step).j = none ∧
        (⟨[1, 2], some (-1), some 0, some 1, "compare"⟩ : Step).pivot_index = none) :=
  c6_amended_index_validity [1, 2] ⟨[1, 2], some (-1), some 0, some 1, "compare"⟩ (by decide)

/-- C7: a `swap` Step is emitted only for an actual exchange: its `i`
and `j` fields are present, distinct, nonnegative positions. -/
theorem c7_swap_steps_distinct (l : List Int) :
    ∀ s ∈ quicksort_steps l, s.action = "swap" →
      ∃ a b : Int, s.i = some a ∧ s.j = some b ∧ a ≠ b ∧ 0 ≤ a ∧ 0 ≤ b := by
  obtain ⟨pre, res, heq, hperm, hsort, hsteps⟩ := quicksort_steps_master l
  intro s hs hswap
  rw [heq] at hs
  rcases List.mem_append.mp hs with hs1 | hs2
  · obtain ⟨⟨hlen, hact, hpv, hj, hi, hsw⟩, _⟩ := hsteps s hs1
    obtain ⟨a, b, ha, hb, hab, ha0⟩ := hsw hswap
    exact ⟨a, b, ha, hb, hab, ha0, (hj b hb).1⟩
  · obtain rfl := List.mem_singleton.mp hs2
    simp at hswap

/-- Witness for C7 at `[3, 1, 2]`, whose run contains the swap Step
exchanging positions 0 and 1. -/
theorem c7_swap_steps_distinct_witness :
    ∃ a b : Int, (⟨[1, 3, 2], some 0, some 1, some 2, "swap"⟩ : Step).i = some a ∧
      (⟨[1, 3, 2], some 0, some 1, some 2, "swap"⟩ : Step).j = some b ∧
      a ≠ b ∧ 0 ≤ a ∧ 0 ≤ b :=
  c7_swap_steps_distinct [3, 1, 2] ⟨[1, 3, 2], some 0, some 1, some 2, "swap"⟩ (by decide) rfl

/-- C8: on inputs of length 0 and 1 the generator emits exactly one
Step, the `done` Step carrying the input unchanged, with no
intermediate Steps. -/
theorem c8_degenerate (x : Int) :
    quicksort_steps ([] : List Int) = [⟨[], none, none, none, "done"⟩] ∧
    quicksort_steps [x] = [⟨[x], none, none, none, "done"⟩] :=
  ⟨rfl, rfl⟩

/-- C3: once both `finishTime`s are set, the verdict of the results
overlay is determined by the elapsed durations `finishTime - startTime`
(the display clock `now` is irrelevant): a strictly smaller player
duration gives `player`, a strictly smaller algorithm duration gives
`algorithm`, equal durations give `tie`; in particular durations 4.0 vs
3.5 give `algorithm`. -/
theorem c3_verdict_by_elapsed (p a : SideState) (now tp ta : ℚ)
    (hp : p.finish_time = some tp) (ha : a.finish_time = some ta) :
    side_elapsed p now = tp - p.start_time ∧
    side_elapsed a now = ta - a.start_time ∧
    (side_elapsed p now < side_elapsed a now →
      race_verdict (side_elapsed p now) (side_elapsed a now) = Verdict.player) ∧
    (side_elapsed a now < side_elapsed p now →
      race_verdict (side_elapsed p now) (side_elapsed a now) = Verdict.algorithm) ∧
    (side_elapsed p now = side_elapsed a now →
      race_verdict (side_elapsed p now) (side_elapsed a now) = Verdict.tie) ∧
    race_verdict 4 (7 / 2) = Verdict.algorithm := by
  refine ⟨by simp [side_elapsed, hp], by simp [side_elapsed, ha], ?_, ?_, ?_, ?_⟩
  · intro h
    simp [race_verdict, h]
  · intro h
    simp only [race_verdict]
    rw [if_neg (not_lt.mpr (le_of_lt h)), if_pos h]
  · intro h
    simp only [race_verdict]
    rw [h]
    simp [lt_irrefl]
  · norm_num [race_verdict]

/-- Witness for C3: both sides started at 0, the player finished at
4.0 s, the algorithm at 3.5 s. -/
theorem c3_verdict_by_elapsed_witness :
    side_elapsed ⟨[10, 20], 0, some 4, 3, none⟩ 9 = 4 - (0 : ℚ) ∧
    side_elapsed ⟨[10, 20], 0, some (7 / 2), 0, none⟩ 9 = 7 / 2 - (0 : ℚ) ∧
    (side_elapsed ⟨[10, 20], 0, some 4, 3, none⟩ 9 <
        side_elapsed ⟨[10, 20], 0, some (7 / 2), 0, none⟩ 9 →
      race_verdict (side_elapsed ⟨[10, 20], 0, some 4, 3, none⟩ 9)
        (side_elapsed ⟨[10, 20], 0, some (7 / 2), 0, none⟩ 9) = Verdict.player) ∧
    (side_elapsed ⟨[10, 20], 0, some (7 / 2), 0, none⟩ 9 <
        side_elapsed ⟨[10, 20], 0, some 4, 3, none⟩ 9 →
      race_verdict (side_elapsed ⟨[10, 20], 0, some 4, 3, none⟩ 9)
        (side_elapsed ⟨[10, 20], 0, some (7 / 2), 0, none⟩ 9) = Verdict.algorithm) ∧
    (side_elapsed ⟨[10, 20], 0, some 4, 3, none⟩ 9 =
        side_elapsed ⟨[10, 20], 0, some (7 / 2), 0, none⟩ 9 →
      race_verdict (side_elapsed ⟨[10, 20], 0, some 4, 3, none⟩ 9)
        (side_elapsed ⟨[10, 20], 0, some (7 / 2), 0, none⟩ 9) = Verdict.tie) ∧
    race_verdict 4 (7 / 2) = Verdict.algorithm :=
  c3_verdict_by_elapsed ⟨[10, 20], 0, some 4, 3, none⟩ ⟨[10, 20], 0, some (7 / 2), 0, none⟩
    9 4 (7 / 2) rfl rfl

/-- C5: once a side's `finishTime` is set, no engine operation (click
handling, the run-loop player finish check, a pacing tick) clears or
reassigns it. -/
theorem c5_finish_time_stable (s : SideState) (idx? : Option Nat) (now t : ℚ)
    (steps : List Step) (paused : Bool) (st : AlgoState) (dt ta : ℚ) :
    (s.finish_time = some t → (handle_click s idx? now).finish_time = some t) ∧
    (s.finish_time = some t → (player_finish_check s now).finish_time = some t) ∧
    (st.finish_time = some ta → (update_algo steps paused now st dt).finish_time = some ta) := by
  refine ⟨?_, ?_, ?_⟩
  · intro h
    cases idx? with
    | none => exact h
    | some idx => simp [handle_click, h]
  · intro h
    simp [player_finish_check, h]
  · intro h
    simp [update_algo, h]

/-- Witness for C5 with both sides already finished. -/
theorem c5_finish_time_stable_witness :
    (handle_click ⟨[2, 1], 0, some 3, 1, none⟩ (some 0) 9).finish_time = some 3 ∧
    (player_finish_check ⟨[2, 1], 0, some 3, 1, none⟩ 9).finish_time = some 3 ∧
    (update_algo [] false 9 ⟨[2, 1], some 4, 0, 0⟩ 1).finish_time = some 4 :=
  ⟨(c5_finish_time_stable ⟨[2, 1], 0, some 3, 1, none⟩ (some 0) 9 3 [] false
      ⟨[2, 1], some 4, 0, 0⟩ 1 4).1 rfl,
   (c5_finish_time_stable ⟨[2, 1], 0, some 3, 1, none⟩ (some 0) 9 3 [] false
      ⟨[2, 1], some 4, 0, 0⟩ 1 4).2.1 rfl,
   (c5_finish_time_stable ⟨[2, 1], 0, some 3, 1, none⟩ (some 0) 9 3 [] false
      ⟨[2, 1], some 4, 0, 0⟩ 1 4).2.2 rfl⟩

/-- C9: while unfinished, a second click on the selected index itself
only clears the selection: array, move count and `finishTime` are
untouched. -/
theorem c9_same_index_click_clears_selection (s : SideState) (k : Nat) (now : ℚ)
    (hsel : s.selected = some k) (hfin : s.finish_time = none) :
    handle_click s (some k) now = { s with selected := none } := by
  simp [handle_click, hfin, hsel]

/-- Witness for C9: selection on index 1, clicked again at index 1. -/
theorem c9_same_index_click_clears_selection_witness :
    handle_click ⟨[5, 6], 0, none, 2, some 1⟩ (some 1) 7 = ⟨[5, 6], 0, none, 2, none⟩ :=
  c9_same_index_click_clears_selection ⟨[5, 6], 0, none, 2, some 1⟩ 1 7 rfl rfl

/-- A single processed click never changes the multiset of the player's
array: it is ignored, records a selection, or exchanges two entries. -/
theorem listSwap_perm_total (l : List Int) (a b : Nat) : (listSwap l a b).Perm l := by
  unfold listSwap
  rcases h1 : l[a]? with _ | x
  · exact List.Perm.refl l
  · rcases h2 : l[b]? with _ | y
    · exact List.Perm.refl l
    · have ha : a < l.length := by
        by_contra hc
        rw [List.getElem?_eq_none (by omega)] at h1
        exact Option.noConfusion h1
      have hb : b < l.length := by
        by_contra hc
        rw [List.getElem?_eq_none (by omega)] at h2
        exact Option.noConfusion h2
      have hx : l.getD a 0 = x := by
        rw [List.getD_eq_getElem?_getD, h1]
        rfl
      have hy : l.getD b 0 = y := by
        rw [List.getD_eq_getElem?_getD, h2]
        rfl
      rw [← hx, ← hy]
      exact swap_set_perm l a b ha hb

theorem handle_click_arr_perm (s : SideState) (idx? : Option Nat) (now : ℚ) :
    (handle_click s idx? now).arr.Perm s.arr := by
  cases idx? with
  | none => exact List.Perm.refl s.arr
  | some idx =>
    simp only [handle_click]
    split
    · exact List.Perm.refl s.arr
    · split
      · exact List.Perm.refl s.arr
      · split
        · exact listSwap_perm_total s.arr _ idx
        · exact List.Perm.refl s.arr

/-- C10: under every sequence of player clicks processed by the move
validator, the player's array stays a permutation of the array it held
at session reset. -/
theorem c10_player_array_permutation (s : SideState) (clicks : List (Option Nat × ℚ)) :
    (apply_clicks s clicks).arr.Perm s.arr := by
  induction clicks generalizing s with
  | nil => exact List.Perm.refl s.arr
  | cons c cs ih =>
    exact (ih (handle_click s c.1 c.2)).trans (handle_click_arr_perm s c.1 c.2)

/-! ### Pacing controller -/

theorem step_interval_pos : (0 : ℚ) < step_interval := by
  norm_num [step_interval, ALGO_STEPS_PER_SEC]

theorem floor_div_interval_nonneg (x : ℚ) (hx : 0 ≤ x) : 0 ≤ ⌊x / step_interval⌋ :=
  Int.floor_nonneg.mpr (div_nonneg hx (le_of_lt step_interval_pos))

theorem floor_mul_interval_le (x : ℚ) (hx : 0 ≤ x) :
    ((⌊x / step_interval⌋).toNat : ℚ) * step_interval ≤ x := by
  have h1 : ((⌊x / step_interval⌋).toNat : Int) = ⌊x / step_interval⌋ :=
    Int.toNat_of_nonneg (floor_div_interval_nonneg x hx)
  have h2 : ((⌊x / step_interval⌋ : Int) : ℚ) ≤ x / step_interval := Int.floor_le _
  have h3 : ((⌊x / step_interval⌋ : Int) : ℚ) * step_interval ≤ x := by
    calc ((⌊x / step_interval⌋ : Int) : ℚ) * step_interval
        ≤ x / step_interval * step_interval :=
          mul_le_mul_of_nonneg_right h2 (le_of_lt step_interval_pos)
      _ = x := div_mul_cancel₀ x (ne_of_gt step_interval_pos)
  have h4 : (((⌊x / step_interval⌋).toNat : Nat) : ℚ) = ((⌊x / step_interval⌋ : Int) : ℚ) := by
    exact_mod_cast congrArg (fun z : Int => (z : ℚ)) h1
  rw [h4]
  exact h3

/-- Adding one tick of `d` seconds to the invariant state splits the
new total's step count as the old count plus the drained count. -/
theorem tick_floor_decomp (acc d : ℚ) (hacc : 0 ≤ acc) :
    ⌊(acc + d) / step_interval⌋ =
      ((⌊acc / step_interval⌋).toNat : Int) +
        ⌊(acc - ((⌊acc / step_interval⌋).toNat : ℚ) * step_interval + d) / step_interval⌋ := by
  have hι : step_interval ≠ 0 := ne_of_gt step_interval_pos
  have h0 : ((⌊acc / step_interval⌋).toNat : Int) = ⌊acc / step_interval⌋ :=
    Int.toNat_of_nonneg (floor_div_interval_nonneg acc hacc)
  have h1 : (((⌊acc / step_interval⌋).toNat : Nat) : ℚ) = ((⌊acc / step_interval⌋ : Int) : ℚ) := by
    exact_mod_cast congrArg (fun z : Int => (z : ℚ)) h0
  rw [h1, h0]
  have heq : (acc + d) / step_interval =
      (acc - ((⌊acc / step_interval⌋ : Int) : ℚ) * step_interval + d) / step_interval +
        ((⌊acc / step_interval⌋ : Int) : ℚ) := by
    field_simp
    ring
  rw [heq, Int.floor_add_int]
  ring

/-- Total unpaused time is nonnegative when every tick is. -/
theorem effSum_nonneg (ticks : List (ℚ × Bool)) (h : ∀ t ∈ ticks, 0 ≤ t.1) :
    0 ≤ effSum ticks := by
  induction ticks with
  | nil => simp [effSum]
  | cons t ts ih =>
    have hts : 0 ≤ effSum ts := ih (fun u hu => h u (List.mem_cons_of_mem t hu))
    by_cases ht : t.2
    · simpa [effSum, ht] using hts
    · have ht1 : 0 ≤ t.1 := h t (List.mem_cons_self t ts)
      have : effSum (t :: ts) = t.1 + effSum ts := by
        simp [effSum, ht]
      rw [this]
      positivity

theorem effSum_cons_paused (t : ℚ × Bool) (ts : List (ℚ × Bool)) (ht : t.2 = true) :
    effSum (t :: ts) = effSum ts := by
  simp [effSum, ht]

theorem effSum_cons_active (t : ℚ × Bool) (ts : List (ℚ × Bool)) (ht : t.2 = false) :
    effSum (t :: ts) = t.1 + effSum ts := by
  simp [effSum, ht]

/-- Closed form of the accumulator drain loop: as long as no `done`
Step (and no exhaustion) is reached, draining a timer worth `m` whole
intervals consumes exactly the next `m` generator Steps, leaves
`finish_time` unset, keeps the residual timer, and displays the last
consumed Step's array. -/
theorem algoDrain_spec (steps : List Step) (now : ℚ) :
    ∀ (m : Nat) (st : AlgoState), st.finish_time = none → 0 ≤ st.timer →
      ⌊st.timer / step_interval⌋ = (m : Int) →
      (∀ k : Nat, k < st.pos + m → k < steps.length ∧ (stepAt steps k).action ≠ "done") →
      algoDrain steps now st =
        ⟨if m = 0 then st.arr else (stepAt steps (st.pos + m - 1)).array, none,
          st.timer - (m : ℚ) * step_interval, st.pos + m⟩ := by
  intro m
  induction m with
  | zero =>
    intro st hf ht hfl _
    have hlt : st.timer < step_interval := by
      by_contra hc
      push_neg at hc
      have h1 : (1 : ℚ) ≤ st.timer / step_interval := (one_le_div step_interval_pos).mpr hc
      have h2 : (1 : Int) ≤ ⌊st.timer / step_interval⌋ := Int.le_floor.mpr (by exact_mod_cast h1)
      omega
    rw [algoDrain, dif_neg (not_le.mpr hlt)]
    cases st with
    | mk arr ft timer pos =>
      simp only at hf
      rw [hf]
      norm_num
  | succ m ih =>
    intro st hf ht hfl hk
    have hge : step_interval ≤ st.timer := by
      have h2 : (1 : Int) ≤ ⌊st.timer / step_interval⌋ := by omega
      have h3 : (1 : ℚ) ≤ st.timer / step_interval := by exact_mod_cast Int.le_floor.mp h2
      exact (one_le_div step_interval_pos).mp h3
    have hpos : st.pos < steps.length := (hk st.pos (by omega)).1
    have hdone : (stepAt steps st.pos).action ≠ "done" := (hk st.pos (by omega)).2
    rw [algoDrain, dif_pos hge, if_pos hpos]
    show algoDrain steps now
        ⟨(stepAt steps st.pos).array,
          if (stepAt steps st.pos).action = "done" ∧ st.finish_time = none then some now
          else st.finish_time,
          st.timer - step_interval, st.pos + 1⟩ = _
    rw [if_neg (fun hcon => hdone hcon.1), hf]
    have hfl2 : ⌊(st.timer - step_interval) / step_interval⌋ = (m : Int) := by
      rw [sub_div, div_self (ne_of_gt step_interval_pos)]
      rw [show st.timer / step_interval - 1 = st.timer / step_interval + (-1 : Int) by push_cast; ring]
      rw [Int.floor_add_int]
      omega
    have ht2 : (0 : ℚ) ≤ st.timer - step_interval := by linarith
    rw [ih ⟨(stepAt steps st.pos).array, none, st.timer - step_interval, st.pos + 1⟩ rfl ht2 hfl2
      (fun k hkk => hk k (by
        have hkk2 : k < st.pos + 1 + m := hkk
        omega))]
    congr 1
    · cases m with
      | zero => simp
      | succ m2 =>
        have hne : ¬ (m2 + 1 = 0) := by omega
        have hne2 : ¬ (m2 + 1 + 1 = 0) := by omega
        rw [if_neg hne, if_neg hne2]
        have harg : st.pos + 1 + (m2 + 1) - 1 = st.pos + (m2 + 1 + 1) - 1 := by omega
        rw [harg]
    · push_cast
      ring
    · show st.pos + 1 + m = st.pos + (m + 1)
      omega

theorem paceState_zero (steps : List Step) (a0 : List Int) :
    paceState steps a0 0 = ⟨a0, none, 0, 0⟩ := by
  simp [paceState]

theorem runTicks_cons (steps : List Step) (now : ℚ) (st : AlgoState) (t : ℚ × Bool)
    (ts : List (ℚ × Bool)) :
    runTicks steps now st (t :: ts) = runTicks steps now (update_algo steps t.2 now st t.1) ts :=
  rfl

theorem update_algo_active (steps : List Step) (now : ℚ) (st : AlgoState) (dt : ℚ)
    (h : st.finish_time = none) :
    update_algo steps false now st dt =
      algoDrain steps now ⟨st.arr, st.finish_time, st.timer + dt, st.pos⟩ := by
  simp [update_algo, h]

theorem update_algo_paused (steps : List Step) (now : ℚ) (st : AlgoState) (dt : ℚ) :
    update_algo steps true now st dt = st := by
  simp [update_algo]

/-- One unpaused tick of `d` seconds advances the pacing invariant from
accumulated time `acc` to `acc + d`, provided the Steps it consumes
exist and are not `done`. -/
theorem paceState_tick (steps : List Step) (now : ℚ) (a0 : List Int) (acc d : ℚ)
    (hacc : 0 ≤ acc) (hd : 0 ≤ d)
    (hcap : ∀ k : Nat, (k : Int) < ⌊(acc + d) / step_interval⌋ →
        k < steps.length ∧ (stepAt steps k).action ≠ "done") :
    update_algo steps false now (paceState steps a0 acc) d = paceState steps a0 (acc + d) := by
  have hn0 : (((⌊acc / step_interval⌋).toNat : Nat) : Int) = ⌊acc / step_interval⌋ :=
    Int.toNat_of_nonneg (floor_div_interval_nonneg acc hacc)
  have hres : 0 ≤ acc - ((⌊acc / step_interval⌋).toNat : ℚ) * step_interval := by
    have h1 := floor_mul_interval_le acc hacc
    linarith
  have hT : 0 ≤ acc - ((⌊acc / step_interval⌋).toNat : ℚ) * step_interval + d := by linarith
  have hdec := tick_floor_decomp acc d hacc
  have hm0 : (((⌊(acc - ((⌊acc / step_interval⌋).toNat : ℚ) * step_interval + d) /
      step_interval⌋).toNat : Nat) : Int) =
      ⌊(acc - ((⌊acc / step_interval⌋).toNat : ℚ) * step_interval + d) / step_interval⌋ :=
    Int.toNat_of_nonneg (floor_div_interval_nonneg _ hT)
  have hsum : (⌊(acc + d) / step_interval⌋).toNat =
      (⌊acc / step_interval⌋).toNat +
        (⌊(acc - ((⌊acc / step_interval⌋).toNat : ℚ) * step_interval + d) /
          step_interval⌋).toNat := by
    omega
  rw [update_algo_active steps now (paceState steps a0 acc) d rfl]
  show algoDrain steps now
      ⟨(paceState steps a0 acc).arr, none,
        acc - ((⌊acc / step_interval⌋).toNat : ℚ) * step_interval + d,
        (⌊acc / step_interval⌋).toNat⟩ = _
  rw [algoDrain_spec steps now
    ((⌊(acc - ((⌊acc / step_interval⌋).toNat : ℚ) * step_interval + d) / step_interval⌋).toNat)
    ⟨(paceState steps a0 acc).arr, none,
      acc - ((⌊acc / step_interval⌋).toNat : ℚ) * step_interval + d,
      (⌊acc / step_interval⌋).toNat⟩ rfl hT hm0.symm
    (by
      intro k hk
      apply hcap k
      have hk2 : (k : Int) <
          ((⌊acc / step_interval⌋).toNat : Int) +
            ((⌊(acc - ((⌊acc / step_interval⌋).toNat : ℚ) * step_interval + d) /
              step_interval⌋).toNat : Int) := by
        have hk3 : k < (⌊acc / step_interval⌋).toNat +
            (⌊(acc - ((⌊acc / step_interval⌋).toNat : ℚ) * step_interval + d) /
              step_interval⌋).toNat := hk
        exact_mod_cast hk3
      omega)]
  simp only [paceState]
  rw [hsum]
  congr 1
  · cases hm : (⌊(acc - ((⌊acc / step_interval⌋).toNat : ℚ) * step_interval + d) /
        step_interval⌋).toNat with
    | zero => simp
    | succ m2 =>
      have h1 : ¬ (m2 + 1 = 0) := by omega
      have h2 : ¬ ((⌊acc / step_interval⌋).toNat + (m2 + 1) = 0) := by omega
      rw [if_neg h1, if_neg h2]
  · push_cast
    ring

/-- Folding any tick sequence over the pacing controller moves the
invariant state by the total unpaused time, independently of how that
time is split across ticks, as long as the consumed Steps exist and are
not `done`. -/
theorem runTicks_spec (steps : List Step) (now : ℚ) (a0 : List Int) :
    ∀ (ticks : List (ℚ × Bool)) (acc : ℚ),
      0 ≤ acc → (∀ t ∈ ticks, 0 ≤ t.1) →
      (∀ k : Nat, (k : Int) < ⌊(acc + effSum ticks) / step_interval⌋ →
          k < steps.length ∧ (stepAt steps k).action ≠ "done") →
      runTicks steps now (paceState steps a0 acc) ticks =
        paceState steps a0 (acc + effSum ticks) := by
  intro ticks
  induction ticks with
  | nil =>
    intro acc hacc _ _
    have h0 : effSum ([] : List (ℚ × Bool)) = 0 := by simp [effSum]
    rw [h0, add_zero]
    rfl
  | cons t ts ih =>
    intro acc hacc hdt hcap
    have hts : ∀ u ∈ ts, 0 ≤ u.1 := fun u hu => hdt u (List.mem_cons_of_mem t hu)
    have ht1 : 0 ≤ t.1 := hdt t (List.mem_cons_self t ts)
    rw [runTicks_cons]
    by_cases ht2 : t.2
    · rw [effSum_cons_paused t ts ht2] at hcap ⊢
      rw [ht2, update_algo_paused]
      exact ih acc hacc hts hcap
    · have ht2f : t.2 = false := by simpa using ht2
      rw [effSum_cons_active t ts ht2f] at hcap ⊢
      have hassoc : acc + (t.1 + effSum ts) = acc + t.1 + effSum ts := by ring
      rw [hassoc] at hcap ⊢
      rw [ht2f]
      have hcap1 : ∀ k : Nat, (k : Int) < ⌊(acc + t.1) / step_interval⌋ →
          k < steps.length ∧ (stepAt steps k).action ≠ "done" := by
        intro k hk
        apply hcap k
        have hmono : ⌊(acc + t.1) / step_interval⌋ ≤
            ⌊(acc + t.1 + effSum ts) / step_interval⌋ := by
          apply Int.floor_mono
          exact div_le_div_of_nonneg_right
            (by have := effSum_nonneg ts hts; linarith) (le_of_lt step_interval_pos)
        omega
      rw [paceState_tick steps now a0 acc t.1 hacc ht1 hcap1]
      exact ih (acc + t.1) (by linarith) hts hcap

/-- C4: for tick sequences of nonnegative `dt` (pause flags allowed,
the paused time simply dropped), as long as the algorithm has not
finished (the consumed step count stays below the generator length),
the resulting state — and hence the applied Step prefix — depends only
on the total unpaused time: its `pos` is `⌊total / step_interval⌋`,
`finishTime` stays unset, and any two schedules with the same total
(e.g. pausing and resuming versus never pausing) end in identical
states. -/
theorem c4_pacing_depends_only_on_total (l : List Int) (ticks1 ticks2 : List (ℚ × Bool))
    (now : ℚ) (h1 : ∀ t ∈ ticks1, 0 ≤ t.1) (h2 : ∀ t ∈ ticks2, 0 ≤ t.1)
    (heq : effSum ticks1 = effSum ticks2)
    (hcap : (⌊effSum ticks1 / step_interval⌋).toNat < (quicksort_steps l).length) :
    runTicks (quicksort_steps l) now ⟨l, none, 0, 0⟩ ticks1 =
      runTicks (quicksort_steps l) now ⟨l, none, 0, 0⟩ ticks2 ∧
    (runTicks (quicksort_steps l) now ⟨l, none, 0, 0⟩ ticks1).pos =
      (⌊effSum ticks1 / step_interval⌋).toNat ∧
    (runTicks (quicksort_steps l) now ⟨l, none, 0, 0⟩ ticks1).finish_time = none := by
  have hcap1 : ∀ k : Nat, (k : Int) < ⌊((0 : ℚ) + effSum ticks1) / step_interval⌋ →
      k < (quicksort_steps l).length ∧ (stepAt (quicksort_steps l) k).action ≠ "done" := by
    intro k hk
    rw [zero_add] at hk
    have hk2 : k < (⌊effSum ticks1 / step_interval⌋).toNat := by omega
    have hklen : k < (quicksort_steps l).length := by omega
    refine ⟨hklen, ?_⟩
    obtain ⟨pre, res, heqq, _, _, hsteps⟩ := quicksort_steps_master l
    have hlen2 : (quicksort_steps l).length = pre.length + 1 := by
      rw [heqq]
      simp
    have hkpre : k < pre.length := by omega
    have hstep : stepAt (quicksort_steps l) k = pre.getD k ⟨[], none, none, none, ""⟩ := by
      rw [stepAt, heqq]
      exact List.getD_append pre _ _ k hkpre
    rw [hstep, List.getD_eq_getElem pre _ hkpre]
    obtain ⟨⟨_, hact, _⟩, _⟩ := hsteps pre[k] (List.getElem_mem hkpre)
    rcases hact with hh | hh | hh | hh <;> rw [hh] <;> decide
  have hcap2 : ∀ k : Nat, (k : Int) < ⌊((0 : ℚ) + effSum ticks2) / step_interval⌋ →
      k < (quicksort_steps l).length ∧ (stepAt (quicksort_steps l) k).action ≠ "done" := by
    intro k hk
    rw [zero_add, ← heq] at hk
    exact hcap1 k (by rw [zero_add]; exact hk)
  have hbase : (⟨l, none, 0, 0⟩ : AlgoState) = paceState (quicksort_steps l) l 0 :=
    (paceState_zero (quicksort_steps l) l).symm
  rw [hbase, runTicks_spec (quicksort_steps l) now l ticks1 0 le_rfl h1 hcap1,
    runTicks_spec (quicksort_steps l) now l ticks2 0 le_rfl h2 hcap2]
  refine ⟨by rw [zero_add, zero_add, heq], ?_, ?_⟩
  · simp [paceState]
  · simp [paceState]

/-- Witness for C4: one tick of exactly one interval versus a pause
tick followed by two half-interval ticks; both schedules consume one
Step of the four-Step run on `[2, 1]`. -/
theorem c4_pacing_depends_only_on_total_witness :
    (∀ t ∈ [((1 : ℚ) / 24, false)], 0 ≤ t.1) ∧
    (∀ t ∈ [((5 : ℚ), true), ((1 : ℚ) / 48, false), ((1 : ℚ) / 48, false)], 0 ≤ t.1) ∧
    effSum [((1 : ℚ) / 24, false)] =
      effSum [((5 : ℚ), true), ((1 : ℚ) / 48, false), ((1 : ℚ) / 48, false)] ∧
    (⌊effSum [((1 : ℚ) / 24, false)] / step_interval⌋).toNat < (quicksort_steps [2, 1]).length ∧
    (runTicks (quicksort_steps [2, 1]) 0 ⟨[2, 1], none, 0, 0⟩ [((1 : ℚ) / 24, false)] =
        runTicks (quicksort_steps [2, 1]) 0 ⟨[2, 1], none, 0, 0⟩
          [((5 : ℚ), true), ((1 : ℚ) / 48, false), ((1 : ℚ) / 48, false)] ∧
      (runTicks (quicksort_steps [2, 1]) 0 ⟨[2, 1], none, 0, 0⟩ [((1 : ℚ) / 24, false)]).pos =
        (⌊effSum [((1 : ℚ) / 24, false)] / step_interval⌋).toNat ∧
      (runTicks (quicksort_steps [2, 1]) 0 ⟨[2, 1], none, 0, 0⟩
          [((1 : ℚ) / 24, false)]).finish_time = none) := by
  have p1 : ∀ t ∈ [((1 : ℚ) / 24, false)], 0 ≤ t.1 := by
    intro t ht
    simp only [List.mem_singleton] at ht
    rw [ht]
    norm_num
  have p2 : ∀ t ∈ [((5 : ℚ), true), ((1 : ℚ) / 48, false), ((1 : ℚ) / 48, false)], 0 ≤ t.1 := by
    intro t ht
    fin_cases ht <;> norm_num
  have p3 : effSum [((1 : ℚ) / 24, false)] =
      effSum [((5 : ℚ), true), ((1 : ℚ) / 48, false), ((1 : ℚ) / 48, false)] := by
    norm_num [effSum]
  have p4 : (⌊effSum [((1 : ℚ) / 24, false)] / step_interval⌋).toNat <
      (quicksort_steps [2, 1]).length := by
    have e1 : effSum [((1 : ℚ) / 24, false)] = 1 / 24 := by norm_num [effSum]
    have hq : ((1 : ℚ) / 24) / step_interval = 1 := by
      simp only [step_interval, ALGO_STEPS_PER_SEC]
      norm_num
    rw [e1, hq, Int.floor_one]
    show (1 : Int).toNat < (quicksort_steps [2, 1]).length
    rw [show (quicksort_steps [2, 1]).length = 4 from rfl]
    norm_num
  exact ⟨p1, p2, p3, p4,
    c4_pacing_depends_only_on_total [2, 1] [((1 : ℚ) / 24, false)]
      [((5 : ℚ), true), ((1 : ℚ) / 48, false), ((1 : ℚ) / 48, false)] 0 p1 p2 p3 p4⟩
